import Mathlib

/-
Verification development for the track-while-listening repository
(src/track.py).

The source is a single Python file. Its core is:

* listen(): spawns a daemon thread running listening_thread(comms),
  which performs one blocking input() and then appends True to the
  shared list comms (the Signal), and terminates. listen() creates a
  fresh empty comms list on every call and returns (thread, comms).

* tracker_code(nturns): starts a listener, then for each turn in
  range(nturns), inside a try block: runs the opaque per-iteration
  work, invokes every callable in the global list tasks_each_turn with
  locals(), then polls the Signal (if comms:); on a trigger it calls
  embed() (the interactive shell) and starts a fresh listener. On any
  exception in the try block it joins the current thread and re-raises.
  After the loop it invokes every callable in tasks_after_tracking with
  locals() and finally joins the outstanding thread.

Shallow embedding choices, documented per definition below:
* machine effects (printing, tqdm progress display, time.sleep) carry
  no control-flow meaning and are not modelled;
* the opaque per-iteration work, the poll results of the Signal, and
  the actions the operator performs inside the embedded shell are
  external inputs, collected in an Env oracle;
* hooks in the source are arbitrary callables; we model the family of
  hook behaviours the observable claims exercise: a no-op hook, a hook
  that raises, and a hook that appends another hook to the live
  tasks_each_turn list during its own invocation;
* executions are recorded as traces of Events so that ordering claims
  become equalities between lists.
-/

namespace TrackWhileListening

/-! ## The Signal and the listener (src/track.py lines 32-48) -/

/-- The Signal of the source is the Python list comms: it is set
(truthy) exactly when it is nonempty. -/
abbrev Signal := List Bool

/-- Python truthiness test `if comms:` on the Signal list. -/
def signalSet (c : Signal) : Bool := !c.isEmpty

/-- Body of the worker spawned by listen(): after the one blocking
input() returns, the worker appends True to comms and terminates.
The single append is the only write the worker ever performs. -/
def listening_thread (comms : Signal) : Signal := comms ++ [true]

/-- A ListenerHandle pairs the worker body with its Signal, as the
source pairs the thread with its comms list. -/
structure ListenerHandle where
  body : Signal → Signal
  comms : Signal

/-- listen() of the source: creates a fresh empty comms list and a
worker whose body is listening_thread. -/
def listen : ListenerHandle := ⟨listening_thread, []⟩

/-! ## Hooks, events and the environment oracle -/

/-- Modelled hook behaviours. Source hooks are arbitrary callables
receiving locals(); the claims exercise hooks that do nothing, hooks
that raise (the raised error is identified by a Nat payload), and
hooks that append a further hook to the global tasks_each_turn list
during their own invocation. Every hook carries a Nat identity used
in the recorded trace. -/
inductive Hook where
  | pure (hid : Nat)
  | raiseErr (hid : Nat)
  | appendEach (hid : Nat) (h : Hook)
deriving Repr, DecidableEq

/-- Observable events of one run of tracker_code, in order. -/
inductive Event where
  | startListener (lid : Nat)
  | work (turn : Nat)
  | invokeEach (turn : Nat) (hid : Nat)
  | checkSignal (turn : Nat) (fired : Bool)
  | embedShell (turn : Nat)
  | invokePost (hid : Nat)
  | joinThread (lid : Nat)
deriving Repr, DecidableEq

/-- Actions the operator may perform inside the embedded interactive
shell: append a hook to tasks_each_turn or to tasks_after_tracking
(the example in the source appends a printer to tasks_each_turn). -/
inductive EmbedAct where
  | addEach (h : Hook)
  | addAfter (h : Hook)
deriving Repr, DecidableEq

/-- External inputs of a run: whether the opaque per-iteration work
raises at a given turn (and with which error), whether the poll
`if comms:` at a given turn observes the Signal set, and which
actions the operator performs in the shell opened at a given turn. -/
structure Env where
  workErr : Nat → Option Nat
  trigger : Nat → Bool
  embedActs : Nat → List EmbedAct

/-- Size of a hook term, the measure for live-list iteration. -/
def Hook.size : Hook → Nat
  | .pure _ => 1
  | .raiseErr _ => 1
  | .appendEach _ h => 1 + h.size

/-- Total size of a hook list. -/
def hooksSize (l : List Hook) : Nat := (l.map Hook.size).sum

/-- Live iteration of tasks_each_turn at one turn, as Python runs
`for task in tasks_each_turn: task(locals())`: the list iterator sees
elements appended during the iteration, so an appended hook is reached
in the same pass. done is the already-visited part and todo the rest;
done ++ todo is the current value of the shared list. Returns the
final value of tasks_each_turn, the invocation events, and the error
of the first raising hook if any (raising aborts the for loop and the
surrounding try block catches). -/
def runLive (turn : Nat) : List Hook → List Hook → List Hook × List Event × Option Nat
  | done, [] => (done, [], none)
  | done, .pure i :: rest =>
      let r := runLive turn (done ++ [.pure i]) rest
      (r.1, .invokeEach turn i :: r.2.1, r.2.2)
  | done, .raiseErr i :: rest =>
      (done ++ .raiseErr i :: rest, [.invokeEach turn i], some i)
  | done, .appendEach i h :: rest =>
      let r := runLive turn (done ++ [.appendEach i h]) (rest ++ [h])
      (r.1, .invokeEach turn i :: r.2.1, r.2.2)
termination_by done todo => hooksSize todo
decreasing_by
  all_goals simp [hooksSize, Hook.size]
  all_goals omega

/-- Iteration of tasks_after_tracking after the loop: each hook is
invoked in order; a raising hook aborts the for loop (and, in the
source, propagates out of tracker_code uncaught). An appendEach hook
appends to tasks_each_turn, which this loop does not read, so the
append only updates that list (first component). -/
def runPost : List Hook → List Hook → List Hook × List Event × Option Nat
  | each, [] => (each, [], none)
  | each, .pure i :: rest =>
      let r := runPost each rest
      (r.1, .invokePost i :: r.2.1, r.2.2)
  | each, .raiseErr i :: rest =>
      (each, [.invokePost i], some i)
  | each, .appendEach i h :: rest =>
      let r := runPost (each ++ [h]) rest
      (r.1, .invokePost i :: r.2.1, r.2.2)

/-- Effect of the operator actions of one embedded shell on the two
hook lists. -/
def applyEmbed : List EmbedAct → List Hook → List Hook → List Hook × List Hook
  | [], each, post => (each, post)
  | .addEach h :: rest, each, post => applyEmbed rest (each ++ [h]) post
  | .addAfter h :: rest, each, post => applyEmbed rest each (post ++ [h])

/-- Loop-local state of tracker_code: the two global hook lists, the
identity of the currently held listener (the thread variable), and the
next fresh listener identity. Fresh identities model that each listen()
call creates a fresh thread and a fresh empty comms list. -/
structure LoopSt where
  tasks_each_turn : List Hook
  tasks_after_tracking : List Hook
  threadId : Nat
  nextId : Nat
deriving Repr, DecidableEq

/-- The try block of one loop iteration of tracker_code (src lines
64-76): run the opaque work (which may raise), invoke the per-iteration
hooks on the live list, then poll the Signal; on a trigger, call the
embedded shell (whose operator actions update the hook lists) and start
a fresh listener. Returns the new state, the events of this turn, and
the error caught by the except clause, if any. -/
def oneTurn (env : Env) (turn : Nat) (st : LoopSt) : LoopSt × List Event × Option Nat :=
  match env.workErr turn with
  | some e => (st, [Event.work turn], some e)
  | none =>
    let r := runLive turn [] st.tasks_each_turn
    match r.2.2 with
    | some e => ({ st with tasks_each_turn := r.1 }, Event.work turn :: r.2.1, some e)
    | none =>
      if env.trigger turn then
        let p := applyEmbed (env.embedActs turn) r.1 st.tasks_after_tracking
        ({ tasks_each_turn := p.1, tasks_after_tracking := p.2,
           threadId := st.nextId, nextId := st.nextId + 1 },
         Event.work turn :: r.2.1 ++
           [Event.checkSignal turn true, Event.embedShell turn,
            Event.startListener st.nextId],
         none)
      else
        ({ st with tasks_each_turn := r.1 },
         Event.work turn :: r.2.1 ++ [Event.checkSignal turn false],
         none)

/-- The for loop of tracker_code: one oneTurn per remaining turn. On
an error the except clause joins the currently held thread and the
error propagates (re-raised), ending the loop. -/
def runLoop (env : Env) : Nat → Nat → LoopSt → LoopSt × List Event × Option Nat
  | 0, _, st => (st, [], none)
  | rem + 1, turn, st =>
    let r := oneTurn env turn st
    match r.2.2 with
    | some e => (r.1, r.2.1 ++ [Event.joinThread r.1.threadId], some e)
    | none =>
      let r2 := runLoop env rem (turn + 1) r.1
      (r2.1, r.2.1 ++ r2.2.1, r2.2.2)

/-- Initial loop state: the caller-registered hook lists, listener 0
held (started on entry), next fresh identity 1. -/
def initSt (each post : List Hook) : LoopSt :=
  { tasks_each_turn := each, tasks_after_tracking := post,
    threadId := 0, nextId := 1 }

/-- tracker_code(nturns) of the source (lines 60-86): start a
listener, run the loop; if the loop raised, the error is re-raised to
the caller (the join already happened inside the except clause).
Otherwise run the post-completion hooks; if one of those raises, the
error propagates immediately and the final join is never reached.
Otherwise join the outstanding listener and return normally. The
result is the full event trace and the outcome. -/
def tracker_code (env : Env) (each post : List Hook) (nturns : Nat) :
    List Event × Except Nat Unit :=
  let r := runLoop env nturns 0 (initSt each post)
  match r.2.2 with
  | some e => (Event.startListener 0 :: r.2.1, Except.error e)
  | none =>
    let p := runPost r.1.tasks_each_turn r.1.tasks_after_tracking
    match p.2.2 with
    | some e => (Event.startListener 0 :: (r.2.1 ++ p.2.1), Except.error e)
    | none =>
      (Event.startListener 0 ::
        (r.2.1 ++ p.2.1 ++ [Event.joinThread r.1.threadId]),
       Except.ok ())

/-! ## Concrete environments and trace combinators used by the claims -/

/-- Environment with no work errors, no triggers, and no shell
actions. -/
def envSteady : Env := ⟨fun _ => none, fun _ => false, fun _ => []⟩

/-- Environment with no work errors whose Signal poll observes a
trigger exactly at turn k, where the operator performs the given
shell actions. -/
def envTrigAt (k : Nat) (acts : List EmbedAct) : Env :=
  ⟨fun _ => none, fun t => t == k, fun t => if t == k then acts else []⟩

/-- State of the loop right after the hand-off of a triggered
iteration k: hook lists updated by the operator actions of the shell,
and the freshly started listener (identity st.nextId) held. -/
def contSt (env : Env) (st : LoopSt) (k : Nat) : LoopSt :=
  { tasks_each_turn :=
      (applyEmbed (env.embedActs k) (runLive k [] st.tasks_each_turn).1
        st.tasks_after_tracking).1,
    tasks_after_tracking :=
      (applyEmbed (env.embedActs k) (runLive k [] st.tasks_each_turn).1
        st.tasks_after_tracking).2,
    threadId := st.nextId, nextId := st.nextId + 1 }

/-- Events of one trigger-free, error-free turn with pure hooks ids. -/
def steadyTurn (ids : List Nat) (t : Nat) : List Event :=
  Event.work t :: ids.map (Event.invokeEach t) ++ [Event.checkSignal t false]

/-- Events of c consecutive trigger-free, error-free turns starting at
turn t, with pure hooks ids. -/
def steadyTrace (ids : List Nat) : Nat → Nat → List Event
  | _, 0 => []
  | t, c + 1 => steadyTurn ids t ++ steadyTrace ids (t + 1) c

/-- Is this event a post-completion hook invocation? -/
def isPost : Event → Bool
  | .invokePost _ => true
  | _ => false

/-- Is this event a join of a listener thread? -/
def isJoin : Event → Bool
  | .joinThread _ => true
  | _ => false

/-- Change an event makes to the number of live listener workers: a
start makes one live; an observed trigger means the worker delivered
its input and terminated; a completed join means the worker
terminated after delivering the awaited input. -/
def liveDelta : Event → Int
  | .startListener _ => 1
  | .checkSignal _ fired => if fired then -1 else 0
  | .joinThread _ => -1
  | _ => 0

/-- Net number of listener workers live after a trace. -/
def liveCount (tr : List Event) : Int := (tr.map liveDelta).sum

/-- Checks, event by event from live-worker count c, that the count
stays between 0 and 1 and equals exactly 1 whenever an iteration
begins its work. -/
def liveBound : Int → List Event → Bool
  | _, [] => true
  | c, ev :: rest =>
      (match ev with
       | Event.work _ => decide (c = 1)
       | _ => true) &&
      (decide (0 ≤ c + liveDelta ev) && decide (c + liveDelta ev ≤ 1) &&
       liveBound (c + liveDelta ev) rest)

/-- Number of not-yet-joined handles the loop holds after a trace,
starting from c: the thread variable is overwritten by each listener
start (so a start always leaves exactly one held handle) and the held
handle is released by a join. -/
def heldAfter : Nat → List Event → Nat
  | c, [] => c
  | _, Event.startListener _ :: rest => heldAfter 1 rest
  | _, Event.joinThread _ :: rest => heldAfter 0 rest
  | c, _ :: rest => heldAfter c rest

/-- Events that neither change the live-worker count nor begin an
iteration. -/
def isFlat : Event → Bool
  | .invokeEach _ _ => true
  | .invokePost _ => true
  | .embedShell _ => true
  | .checkSignal _ fired => !fired
  | _ => false

/-! ## Basic lemmas about the embedded operations -/

theorem runLive_nil (t : Nat) (done : List Hook) :
    runLive t done [] = (done, [], none) := by
  simp [runLive]

theorem runLive_pureList (t : Nat) (ids : List Nat) (done : List Hook) :
    runLive t done (ids.map Hook.pure) =
      (done ++ ids.map Hook.pure, ids.map (Event.invokeEach t), none) := by
  induction ids generalizing done with
  | nil => simp [runLive]
  | cons i ids ih =>
    simp only [List.map_cons, runLive, ih]
    simp

theorem runPost_pureList (ids : List Nat) (each : List Hook) :
    runPost each (ids.map Hook.pure) =
      (each, ids.map Event.invokePost, none) := by
  induction ids with
  | nil => simp [runPost]
  | cons i ids ih => simp [runPost, ih]

theorem oneTurn_steady (env : Env) (t : Nat) (st : LoopSt) (ids : List Nat)
    (hw : env.workErr t = none) (ht : env.trigger t = false)
    (he : st.tasks_each_turn = ids.map Hook.pure) :
    oneTurn env t st = (st, steadyTurn ids t, none) := by
  cases st with
  | mk a b tid nid =>
    dsimp only at he
    subst he
    simp [oneTurn, hw, ht, runLive_pureList, steadyTurn]

theorem runLoop_steady (env : Env) (ids : List Nat) (cnt : Nat) :
    ∀ (lo : Nat) (st : LoopSt),
      (∀ t, lo ≤ t → t < lo + cnt → env.workErr t = none ∧ env.trigger t = false) →
      st.tasks_each_turn = ids.map Hook.pure →
      runLoop env cnt lo st = (st, steadyTrace ids lo cnt, none) := by
  induction cnt with
  | zero => intro lo st _ _; simp [runLoop, steadyTrace]
  | succ c ih =>
    intro lo st hok he
    have h0 := hok lo (le_refl lo) (by omega)
    rw [runLoop]
    rw [oneTurn_steady env lo st ids h0.1 h0.2 he]
    simp only
    rw [ih (lo + 1) st (by intro t h1 h2; exact hok t (by omega) (by omega)) he]
    simp [steadyTrace]

theorem runLive_events (t : Nat) (done todo : List Hook) :
    ∀ ev ∈ (runLive t done todo).2.1, ∃ i, ev = Event.invokeEach t i := by
  induction done, todo using runLive.induct t with
  | case1 done => simp [runLive]
  | case2 done i rest ih =>
    intro ev hev
    simp only [runLive, List.mem_cons] at hev
    rcases hev with h | h
    · exact ⟨i, h⟩
    · exact ih ev h
  | case3 done i rest =>
    intro ev hev
    simp only [runLive, List.mem_singleton] at hev
    exact ⟨i, hev⟩
  | case4 done i h rest ih =>
    intro ev hev
    simp only [runLive, List.mem_cons] at hev
    rcases hev with h2 | h2
    · exact ⟨i, h2⟩
    · exact ih ev h2

/-- Exhaustive description of the events of one iteration: the work
event, then per-iteration hook invocations, then (when no error was
raised) the Signal poll and, on a trigger, the shell call and the
fresh listener start. -/
theorem oneTurn_cases (env : Env) (t : Nat) (st : LoopSt) :
    ∃ evs, (∀ ev ∈ evs, ∃ i, ev = Event.invokeEach t i) ∧
      (((oneTurn env t st).2.1 = Event.work t :: evs ∧
          (oneTurn env t st).2.2 ≠ none) ∨
       ((oneTurn env t st).2.1 =
            Event.work t :: evs ++ [Event.checkSignal t false] ∧
          (oneTurn env t st).2.2 = none) ∨
       ((oneTurn env t st).2.1 =
            Event.work t :: evs ++
              [Event.checkSignal t true, Event.embedShell t,
               Event.startListener st.nextId] ∧
          (oneTurn env t st).2.2 = none)) := by
  rcases hw : env.workErr t with _ | e
  · rcases herr : (runLive t [] st.tasks_each_turn).2.2 with _ | e
    · by_cases htr : env.trigger t
      · refine ⟨(runLive t [] st.tasks_each_turn).2.1,
          runLive_events t [] st.tasks_each_turn, Or.inr (Or.inr ⟨?_, ?_⟩)⟩ <;>
          simp [oneTurn, hw, herr, htr]
      · refine ⟨(runLive t [] st.tasks_each_turn).2.1,
          runLive_events t [] st.tasks_each_turn, Or.inr (Or.inl ⟨?_, ?_⟩)⟩ <;>
          simp [oneTurn, hw, herr, htr]
    · refine ⟨(runLive t [] st.tasks_each_turn).2.1,
        runLive_events t [] st.tasks_each_turn, Or.inl ⟨?_, ?_⟩⟩ <;>
        simp [oneTurn, hw, herr]
  · exact ⟨[], by simp, Or.inl ⟨by simp [oneTurn, hw], by simp [oneTurn, hw]⟩⟩

/-- No event of a single iteration is a post-completion invocation or
a join. -/
theorem oneTurn_events (env : Env) (t : Nat) (st : LoopSt) :
    ∀ ev ∈ (oneTurn env t st).2.1, isPost ev = false ∧ isJoin ev = false := by
  intro ev hev
  obtain ⟨evs, hevs, hcase⟩ := oneTurn_cases env t st
  rcases hcase with ⟨hd, _⟩ | ⟨hd, _⟩ | ⟨hd, _⟩ <;> rw [hd] at hev <;>
    simp only [List.mem_cons, List.mem_append, List.mem_singleton,
      List.mem_nil_iff, or_false, or_assoc] at hev
  · rcases hev with rfl | h
    · exact ⟨rfl, rfl⟩
    · obtain ⟨i, rfl⟩ := hevs ev h; exact ⟨rfl, rfl⟩
  · rcases hev with rfl | h | rfl
    · exact ⟨rfl, rfl⟩
    · obtain ⟨i, rfl⟩ := hevs ev h; exact ⟨rfl, rfl⟩
    · exact ⟨rfl, rfl⟩
  · rcases hev with rfl | h | rfl | rfl | rfl
    · exact ⟨rfl, rfl⟩
    · obtain ⟨i, rfl⟩ := hevs ev h; exact ⟨rfl, rfl⟩
    · exact ⟨rfl, rfl⟩
    · exact ⟨rfl, rfl⟩
    · exact ⟨rfl, rfl⟩

theorem runLoop_succ_err (env : Env) (m t : Nat) (st : LoopSt) (e : Nat)
    (h : (oneTurn env t st).2.2 = some e) :
    runLoop env (m + 1) t st =
      ((oneTurn env t st).1,
       (oneTurn env t st).2.1 ++ [Event.joinThread (oneTurn env t st).1.threadId],
       some e) := by
  simp only [runLoop, h]

theorem runLoop_succ_ok (env : Env) (m t : Nat) (st : LoopSt)
    (h : (oneTurn env t st).2.2 = none) :
    runLoop env (m + 1) t st =
      ((runLoop env m (t + 1) (oneTurn env t st).1).1,
       (oneTurn env t st).2.1 ++ (runLoop env m (t + 1) (oneTurn env t st).1).2.1,
       (runLoop env m (t + 1) (oneTurn env t st).1).2.2) := by
  simp only [runLoop, h]

/-- The loop itself never emits a post-completion invocation. -/
theorem runLoop_no_post (env : Env) (n : Nat) :
    ∀ (t : Nat) (st : LoopSt), ∀ ev ∈ (runLoop env n t st).2.1, isPost ev = false := by
  induction n with
  | zero => intro t st ev hev; simp [runLoop] at hev
  | succ m ih =>
    intro t st ev hev
    simp only [runLoop] at hev
    rcases herr : (oneTurn env t st).2.2 with _ | e <;> rw [herr] at hev <;>
      simp only [List.mem_append, List.mem_singleton] at hev
    · rcases hev with h | h
      · exact (oneTurn_events env t st ev h).1
      · exact ih (t + 1) (oneTurn env t st).1 ev h
    · rcases hev with h | rfl
      · exact (oneTurn_events env t st ev h).1
      · rfl

/-- An error-free loop never emits a join: the only join events come
from the except clause. -/
theorem runLoop_no_join_of_ok (env : Env) (n : Nat) :
    ∀ (t : Nat) (st : LoopSt), (runLoop env n t st).2.2 = none →
      ∀ ev ∈ (runLoop env n t st).2.1, isJoin ev = false := by
  induction n with
  | zero => intro t st _ ev hev; simp [runLoop] at hev
  | succ m ih =>
    intro t st hok ev hev
    simp only [runLoop] at hev hok
    rcases herr : (oneTurn env t st).2.2 with _ | e <;> rw [herr] at hev hok
    · simp only [List.mem_append] at hev
      rcases hev with h | h
      · exact (oneTurn_events env t st ev h).2
      · exact ih (t + 1) (oneTurn env t st).1 hok ev h
    · simp at hok

/-- When the loop ends in an error, its events end with the join of
the currently held listener, performed by the except clause before the
re-raise. -/
theorem runLoop_err_shape (env : Env) (n : Nat) :
    ∀ (t : Nat) (st : LoopSt) (e : Nat), (runLoop env n t st).2.2 = some e →
      ∃ evs, (runLoop env n t st).2.1 =
        evs ++ [Event.joinThread (runLoop env n t st).1.threadId] := by
  induction n with
  | zero => intro t st e h; simp [runLoop] at h
  | succ m ih =>
    intro t st e h
    rcases herr : (oneTurn env t st).2.2 with _ | e2
    · rw [runLoop_succ_ok env m t st herr] at h ⊢
      dsimp only at h ⊢
      obtain ⟨evs, hevs⟩ := ih (t + 1) (oneTurn env t st).1 e h
      exact ⟨(oneTurn env t st).2.1 ++ evs, by rw [hevs, List.append_assoc]⟩
    · rw [runLoop_succ_err env m t st e2 herr]
      exact ⟨(oneTurn env t st).2.1, rfl⟩

theorem runPost_fail (pre : List Nat) (e : Nat) (rest each : List Hook) :
    runPost each (pre.map Hook.pure ++ Hook.raiseErr e :: rest) =
      (each, pre.map Event.invokePost ++ [Event.invokePost e], some e) := by
  induction pre generalizing each with
  | nil => simp [runPost]
  | cons i pre ih => simp [runPost, ih]

/-! ## Claim theorems -/

/-- C1: for every iteration count N >= 1, if no trigger event ever
occurs (and, as the spec assumes for this property, neither the work
nor any hook fails), run(N) invokes every per-iteration hook exactly N
times, once per iteration in registration order; only after the last
iteration do the post-completion hooks run, exactly once each in
registration order, followed by a join of the outstanding listener
(still listener 0, never triggered). The whole trace is pinned by the
equality: steadyTrace lists, for each turn 0..N-1 in order, the work
event, then one invokeEach per registered hook in list order, then the
Signal poll. -/
theorem tracker_hooks_fire_each_turn_then_post_then_join
    (env : Env) (ids pids : List Nat) (N : Nat)
    (hN : 1 ≤ N)
    (hw : ∀ t, env.workErr t = none) (ht : ∀ t, env.trigger t = false) :
    tracker_code env (ids.map Hook.pure) (pids.map Hook.pure) N =
      (Event.startListener 0 ::
        (steadyTrace ids 0 N ++ pids.map Event.invokePost ++
          [Event.joinThread 0]),
       Except.ok ()) := by
  have hloop := runLoop_steady env ids N 0 (initSt (ids.map Hook.pure) (pids.map Hook.pure))
    (by intro t _ _; exact ⟨hw t, ht t⟩) rfl
  simp only [tracker_code]
  rw [hloop]
  simp [initSt, runPost_pureList]

/-- Witness for C1 at N = 2, two per-iteration hooks, one
post-completion hook, in the steady environment. -/
theorem tracker_hooks_fire_each_turn_then_post_then_join_witness :
    (1 ≤ 2) ∧
    tracker_code envSteady ([1, 2].map Hook.pure) ([3].map Hook.pure) 2 =
      (Event.startListener 0 ::
        (steadyTrace [1, 2] 0 2 ++ [3].map Event.invokePost ++
          [Event.joinThread 0]),
       Except.ok ()) :=
  ⟨by decide,
   tracker_hooks_fire_each_turn_then_post_then_join envSteady [1, 2] [3] 2
     (by decide) (fun _ => rfl) (fun _ => rfl)⟩

/-- C2: if the per-iteration work or any per-iteration hook raises an
error e during some iteration (formally: the loop ends with error e),
then no post-completion hook is ever invoked (no invokePost event in
the whole trace), the except clause joins the currently held listener,
and the very same error e is re-raised to the caller after that
cleanup: the trace ends with the join of the final held listener and
the outcome is Except.error e. -/
theorem iteration_error_skips_post_joins_and_reraises
    (env : Env) (each post : List Hook) (N e : Nat)
    (h : (runLoop env N 0 (initSt each post)).2.2 = some e) :
    (tracker_code env each post N).2 = Except.error e ∧
    (∀ ev ∈ (tracker_code env each post N).1, isPost ev = false) ∧
    (∃ evs, (tracker_code env each post N).1 =
      evs ++ [Event.joinThread (runLoop env N 0 (initSt each post)).1.threadId]) := by
  obtain ⟨evs, hevs⟩ := runLoop_err_shape env N 0 (initSt each post) e h
  refine ⟨?_, ?_, ?_⟩
  · simp [tracker_code, h]
  · intro ev hev
    simp only [tracker_code, h] at hev
    simp only [List.mem_cons] at hev
    rcases hev with rfl | hev
    · rfl
    · exact runLoop_no_post env N 0 (initSt each post) ev hev
  · refine ⟨Event.startListener 0 :: evs, ?_⟩
    simp [tracker_code, h, hevs]

/-- Witness for C2: a single per-iteration hook raising error 9 in the
first of one iteration. -/
theorem iteration_error_skips_post_joins_and_reraises_witness :
    ((runLoop envSteady 1 0 (initSt [Hook.raiseErr 9] [])).2.2 = some 9) ∧
    ((tracker_code envSteady [Hook.raiseErr 9] [] 1).2 = Except.error 9 ∧
     (∀ ev ∈ (tracker_code envSteady [Hook.raiseErr 9] [] 1).1, isPost ev = false) ∧
     (∃ evs, (tracker_code envSteady [Hook.raiseErr 9] [] 1).1 =
       evs ++ [Event.joinThread
         (runLoop envSteady 1 0 (initSt [Hook.raiseErr 9] [])).1.threadId])) :=
  ⟨by simp [runLoop, oneTurn, runLive, envSteady, initSt],
   iteration_error_skips_post_joins_and_reraises envSteady [Hook.raiseErr 9] [] 1 9
     (by simp [runLoop, oneTurn, runLive, envSteady, initSt])⟩

/-- C3, counterexample to the claim as stated: with zero iterations
and the single post-completion hook raising error 7, the error does
surface to the caller, but the whole trace contains no join event at
all — the controller does not attempt to join the outstanding
listener before propagating a post-completion hook error, because in
the source the final thread.join() sits after the post loop and is
never reached when a post hook raises. -/
theorem post_hook_error_counterexample :
    (tracker_code envSteady [] [Hook.raiseErr 7] 0).1 =
      [Event.startListener 0, Event.invokePost 7] ∧
    (tracker_code envSteady [] [Hook.raiseErr 7] 0).2 = Except.error 7 ∧
    (tracker_code envSteady [] [Hook.raiseErr 7] 0).1.all
      (fun ev => !isJoin ev) = true :=
  ⟨rfl, rfl, rfl⟩

/-- C3 as amended: if a hook in the post-completion list raises, the
error surfaces to the caller and the hooks registered after it in that
list are not invoked (the invokePost events of the trace are exactly
the hooks up to and including the failing one, in order); however the
controller does NOT join the outstanding listener in this case — the
trace of the whole run contains no join event, and the error
propagates with the listener left outstanding. -/
theorem post_hook_error_surfaces_without_join
    (env : Env) (each post : List Hook) (N e : Nat) (pre : List Nat) (rest : List Hook)
    (hok : (runLoop env N 0 (initSt each post)).2.2 = none)
    (hpost : (runLoop env N 0 (initSt each post)).1.tasks_after_tracking =
      pre.map Hook.pure ++ Hook.raiseErr e :: rest) :
    (tracker_code env each post N).2 = Except.error e ∧
    (tracker_code env each post N).1.filter isPost =
      pre.map Event.invokePost ++ [Event.invokePost e] ∧
    (∀ ev ∈ (tracker_code env each post N).1, isJoin ev = false) := by
  have hfail := runPost_fail pre e rest
    (runLoop env N 0 (initSt each post)).1.tasks_each_turn
  refine ⟨?_, ?_, ?_⟩
  · simp [tracker_code, hok, hpost, hfail]
  · simp only [tracker_code, hok, hpost, hfail]
    simp only [List.filter_cons, List.filter_append]
    have h1 : (runLoop env N 0 (initSt each post)).2.1.filter isPost = [] := by
      rw [List.filter_eq_nil_iff]
      intro ev hev
      simp [runLoop_no_post env N 0 (initSt each post) ev hev]
    have h2 : (pre.map Event.invokePost).filter isPost = pre.map Event.invokePost := by
      rw [List.filter_eq_self]
      intro ev hev
      obtain ⟨i, _, rfl⟩ := List.mem_map.mp hev
      rfl
    simp [h1, h2, isPost]
  · intro ev hev
    simp only [tracker_code, hok, hpost, hfail] at hev
    simp only [List.mem_cons, List.mem_append, List.mem_singleton,
      List.mem_nil_iff, or_false, or_assoc] at hev
    rcases hev with rfl | hev | hev | rfl
    · rfl
    · exact runLoop_no_join_of_ok env N 0 (initSt each post) hok ev hev
    · obtain ⟨i, _, rfl⟩ := List.mem_map.mp hev; rfl
    · rfl

/-- Witness for C3 as amended: zero iterations, post-completion hooks
pure 1, raiseErr 7, pure 2; hook 2 is never invoked and no join
occurs. -/
theorem post_hook_error_surfaces_without_join_witness :
    ((runLoop envSteady 0 0
        (initSt [] [Hook.pure 1, Hook.raiseErr 7, Hook.pure 2])).2.2 = none) ∧
    ((runLoop envSteady 0 0
        (initSt [] [Hook.pure 1, Hook.raiseErr 7, Hook.pure 2])).1.tasks_after_tracking =
      [1].map Hook.pure ++ Hook.raiseErr 7 :: [Hook.pure 2]) ∧
    ((tracker_code envSteady [] [Hook.pure 1, Hook.raiseErr 7, Hook.pure 2] 0).2 =
        Except.error 7 ∧
     (tracker_code envSteady [] [Hook.pure 1, Hook.raiseErr 7, Hook.pure 2] 0).1.filter
        isPost = [1].map Event.invokePost ++ [Event.invokePost 7] ∧
     (∀ ev ∈ (tracker_code envSteady [] [Hook.pure 1, Hook.raiseErr 7, Hook.pure 2] 0).1,
        isJoin ev = false)) :=
  ⟨rfl, rfl,
   post_hook_error_surfaces_without_join envSteady []
     [Hook.pure 1, Hook.raiseErr 7, Hook.pure 2] 0 7 [1] [Hook.pure 2] rfl rfl⟩

/-- C9: run(0) performs zero iterations: no per-iteration hook is ever
invoked (the trace contains no invokeEach event and the per-iteration
list is arbitrary), every post-completion hook still runs exactly once
in order, and the listener started on entry (listener 0) is still
outstanding, so the run ends with its join — which, in the source,
blocks until the operator supplies the one input line. -/
theorem run_zero_iterations (env : Env) (each : List Hook) (pids : List Nat) :
    tracker_code env each (pids.map Hook.pure) 0 =
      (Event.startListener 0 ::
        (pids.map Event.invokePost ++ [Event.joinThread 0]),
       Except.ok ()) := by
  simp [tracker_code, runLoop, initSt, runPost_pureList]

/-- C5: within a single RUNNING iteration the order of operations is:
first the opaque per-iteration work, then every hook of the
per-iteration list in registration order, each invoked with the
current snapshot (the invokeEach events carry the turn of the
snapshot they receive), and only then the trigger Signal poll —
followed, exactly when the poll fired, by the hand-off and the fresh
listener start. -/
theorem iteration_order_work_hooks_then_poll
    (env : Env) (st : LoopSt) (t : Nat) (ids : List Nat)
    (hw : env.workErr t = none) (he : st.tasks_each_turn = ids.map Hook.pure) :
    (oneTurn env t st).2.1 =
      Event.work t :: ids.map (Event.invokeEach t) ++
        Event.checkSignal t (env.trigger t) ::
          (if env.trigger t then
            [Event.embedShell t, Event.startListener st.nextId]
          else []) := by
  cases st with
  | mk a b tid nid =>
    dsimp only at he
    subst he
    by_cases htr : env.trigger t <;>
      simp [oneTurn, hw, htr, runLive_pureList]

/-- Witness for C5 at turn 0 with one registered hook and a fired
poll. -/
theorem iteration_order_work_hooks_then_poll_witness :
    (envTrigAt 0 []).workErr 0 = none ∧
    (initSt ([5].map Hook.pure) []).tasks_each_turn = [5].map Hook.pure ∧
    (oneTurn (envTrigAt 0 []) 0 (initSt ([5].map Hook.pure) [])).2.1 =
      Event.work 0 :: [5].map (Event.invokeEach 0) ++
        Event.checkSignal 0 ((envTrigAt 0 []).trigger 0) ::
          (if (envTrigAt 0 []).trigger 0 then
            [Event.embedShell 0,
             Event.startListener (initSt ([5].map Hook.pure) []).nextId]
          else []) :=
  ⟨rfl, rfl,
   iteration_order_work_hooks_then_poll (envTrigAt 0 [])
     (initSt ([5].map Hook.pure) []) 0 [5] rfl rfl⟩

/-- C4: if the poll of iteration k observes the Signal set (and the
iteration raised no error), the interactive hand-off is invoked
synchronously right after the per-iteration hooks of iteration k and
before any event of iteration k+1, and a fresh listener — identity
st.nextId, distinct from every identity handed out before — is
started immediately after the hand-off returns and before the loop
resumes; the resumed loop holds that listener. Signal visibility
(at most one iteration of latency) is modelled by the poll of
iteration k reading env.trigger k directly. -/
theorem trigger_causes_handoff_then_fresh_listener
    (env : Env) (st : LoopSt) (k rem : Nat)
    (hw : env.workErr k = none)
    (ht : env.trigger k = true)
    (hh : (runLive k [] st.tasks_each_turn).2.2 = none) :
    runLoop env (rem + 1) k st =
      ((runLoop env rem (k + 1) (contSt env st k)).1,
       (Event.work k :: (runLive k [] st.tasks_each_turn).2.1 ++
         [Event.checkSignal k true, Event.embedShell k,
          Event.startListener st.nextId]) ++
         (runLoop env rem (k + 1) (contSt env st k)).2.1,
       (runLoop env rem (k + 1) (contSt env st k)).2.2) ∧
    (contSt env st k).threadId = st.nextId ∧
    (contSt env st k).nextId = st.nextId + 1 := by
  have hone : oneTurn env k st =
      (contSt env st k,
       Event.work k :: (runLive k [] st.tasks_each_turn).2.1 ++
         [Event.checkSignal k true, Event.embedShell k,
          Event.startListener st.nextId], none) := by
    simp [oneTurn, hw, ht, hh, contSt]
  refine ⟨?_, rfl, rfl⟩
  rw [runLoop_succ_ok env rem k st (by rw [hone])]
  rw [hone]

/-- Witness for C4: a trigger at iteration 0 with no registered hooks
and no shell actions. -/
theorem trigger_causes_handoff_then_fresh_listener_witness :
    ((envTrigAt 0 []).workErr 0 = none) ∧
    ((envTrigAt 0 []).trigger 0 = true) ∧
    ((runLive 0 [] (initSt [] []).tasks_each_turn).2.2 = none) ∧
    (runLoop (envTrigAt 0 []) (0 + 1) 0 (initSt [] []) =
      ((runLoop (envTrigAt 0 []) 0 1 (contSt (envTrigAt 0 []) (initSt [] []) 0)).1,
       (Event.work 0 :: (runLive 0 [] (initSt [] []).tasks_each_turn).2.1 ++
         [Event.checkSignal 0 true, Event.embedShell 0,
          Event.startListener (initSt [] []).nextId]) ++
         (runLoop (envTrigAt 0 []) 0 1 (contSt (envTrigAt 0 []) (initSt [] []) 0)).2.1,
       (runLoop (envTrigAt 0 []) 0 1 (contSt (envTrigAt 0 []) (initSt [] []) 0)).2.2) ∧
     (contSt (envTrigAt 0 []) (initSt [] []) 0).threadId = (initSt [] []).nextId ∧
     (contSt (envTrigAt 0 []) (initSt [] []) 0).nextId = (initSt [] []).nextId + 1) :=
  ⟨rfl, rfl, by simp [runLive, initSt],
   trigger_causes_handoff_then_fresh_listener (envTrigAt 0 []) (initSt [] []) 0 0
     rfl rfl (by simp [runLive, initSt])⟩

/-- Splitting an error-free run of the first a turns off a longer
loop. -/
theorem runLoop_split_ok (env : Env) (a : Nat) :
    ∀ (b t : Nat) (st st' : LoopSt) (evs : List Event),
      runLoop env a t st = (st', evs, none) →
      runLoop env (a + b) t st =
        ((runLoop env b (t + a) st').1,
         evs ++ (runLoop env b (t + a) st').2.1,
         (runLoop env b (t + a) st').2.2) := by
  induction a with
  | zero =>
    intro b t st st' evs h
    simp only [runLoop, Prod.mk.injEq] at h
    obtain ⟨h1, h2, _⟩ := h
    subst h1; subst h2
    simp
  | succ m ih =>
    intro b t st st' evs h
    rcases herr : (oneTurn env t st).2.2 with _ | e2
    · rw [runLoop_succ_ok env m t st herr] at h
      simp only [Prod.mk.injEq] at h
      obtain ⟨h1, h2, h3⟩ := h
      have hrec : runLoop env m (t + 1) (oneTurn env t st).1 =
          (st', (runLoop env m (t + 1) (oneTurn env t st).1).2.1, none) := by
        rw [← h1, ← h3]
      have ihb := ih b (t + 1) (oneTurn env t st).1 st'
        (runLoop env m (t + 1) (oneTurn env t st).1).2.1 hrec
      have harith : t + 1 + m = t + (m + 1) := by omega
      rw [harith] at ihb
      rw [show m + 1 + b = m + b + 1 by omega]
      rw [runLoop_succ_ok env (m + b) t st herr]
      rw [ihb, ← h2]
      simp [List.append_assoc]
    · rw [runLoop_succ_err env m t st e2 herr] at h
      simp at h

theorem mem_steadyTrace_invokeEach (ids : List Nat) (c : Nat) :
    ∀ (t0 u v : Nat), Event.invokeEach u v ∈ steadyTrace ids t0 c →
      v ∈ ids ∧ t0 ≤ u ∧ u < t0 + c := by
  induction c with
  | zero => intro t0 u v h; simp [steadyTrace] at h
  | succ m ih =>
    intro t0 u v h
    simp only [steadyTrace] at h
    rcases List.mem_append.mp h with h1 | h1
    · simp only [steadyTurn] at h1
      rcases List.mem_cons.mp h1 with h2 | h2
      · exact absurd h2 (by simp)
      · rcases List.mem_append.mp h2 with h3 | h3
        · obtain ⟨i, hi, heq⟩ := List.mem_map.mp h3
          obtain ⟨rfl, rfl⟩ : t0 = u ∧ i = v := by
            injection heq with ha hb; exact ⟨ha, hb⟩
          exact ⟨hi, le_refl _, by omega⟩
        · rcases List.mem_cons.mp h3 with h4 | h4
          · exact absurd h4 (by simp)
          · exact absurd h4 (by simp)
    · obtain ⟨h1', h2', h3'⟩ := ih (t0 + 1) u v h1
      exact ⟨h1', by omega, by omega⟩

theorem invokeEach_mem_steadyTrace (ids : List Nat) (t0 v c : Nat)
    (hc : 1 ≤ c) (hv : v ∈ ids) :
    Event.invokeEach t0 v ∈ steadyTrace ids t0 c := by
  cases c with
  | zero => omega
  | succ m =>
    simp only [steadyTrace, steadyTurn]
    apply List.mem_append_left
    apply List.mem_cons_of_mem
    apply List.mem_append_left
    exact List.mem_map.mpr ⟨v, hv, rfl⟩

/-- C8: a hook appended to the per-iteration list during the
interactive hand-off at iteration k — here the operator appends the
pure hook j in the shell — is first invoked at iteration k+1 and never
during iteration k itself; invocation order remains strictly
registration order, so every iteration after k runs ids first and then
j. The first conjunct pins the whole trace: iterations before k and
the hook invocations of iteration k use ids only, iteration k ends
with the hand-off and the fresh listener 1, and every later iteration
uses ids ++ [j]. The other conjuncts state the claimed memberships for
a hook identity j not registered before. -/
theorem handoff_appended_hook_starts_next_iteration
    (k N j : Nat) (ids pids : List Nat)
    (hkN : k + 1 < N) (hj : j ∉ ids) :
    (tracker_code (envTrigAt k [EmbedAct.addEach (Hook.pure j)])
        (ids.map Hook.pure) (pids.map Hook.pure) N).1 =
      Event.startListener 0 :: (steadyTrace ids 0 k ++
        (Event.work k :: ids.map (Event.invokeEach k) ++
          [Event.checkSignal k true, Event.embedShell k,
           Event.startListener 1]) ++
        steadyTrace (ids ++ [j]) (k + 1) (N - (k + 1)) ++
        pids.map Event.invokePost ++ [Event.joinThread 1]) ∧
    Event.invokeEach k j ∉
      (tracker_code (envTrigAt k [EmbedAct.addEach (Hook.pure j)])
        (ids.map Hook.pure) (pids.map Hook.pure) N).1 ∧
    Event.invokeEach (k + 1) j ∈
      (tracker_code (envTrigAt k [EmbedAct.addEach (Hook.pure j)])
        (ids.map Hook.pure) (pids.map Hook.pure) N).1 := by
  obtain ⟨m, rfl⟩ : ∃ m, N = k + 1 + m := ⟨N - (k + 1), by omega⟩
  have hm : 1 ≤ m := by omega
  have hNm : k + 1 + m - (k + 1) = m := by omega
  rw [hNm]
  set env := envTrigAt k [EmbedAct.addEach (Hook.pure j)] with henv
  set st0 := initSt (ids.map Hook.pure) (pids.map Hook.pure) with hst0
  have henv1 : ∀ t, env.workErr t = none := fun t => rfl
  have henv2 : ∀ t, t ≠ k → env.trigger t = false := by
    intro t htk
    simp [henv, envTrigAt]
    omega
  have henv3 : env.trigger k = true := by simp [henv, envTrigAt]
  have henv4 : env.embedActs k = [EmbedAct.addEach (Hook.pure j)] := by
    simp [henv, envTrigAt]
  have hsteady1 : runLoop env k 0 st0 = (st0, steadyTrace ids 0 k, none) :=
    runLoop_steady env ids k 0 st0
      (by intro t _ h2; exact ⟨henv1 t, henv2 t (by omega)⟩) rfl
  set st1 : LoopSt :=
    { tasks_each_turn := (ids ++ [j]).map Hook.pure,
      tasks_after_tracking := pids.map Hook.pure,
      threadId := 1, nextId := 2 } with hst1
  have hone : oneTurn env k st0 =
      (st1,
       Event.work k :: ids.map (Event.invokeEach k) ++
         [Event.checkSignal k true, Event.embedShell k,
          Event.startListener 1], none) := by
    simp [oneTurn, henv1 k, henv3, henv4, hst0, initSt, runLive_pureList,
      applyEmbed, hst1]
  have hsteady2 : runLoop env m (k + 1) st1 =
      (st1, steadyTrace (ids ++ [j]) (k + 1) m, none) :=
    runLoop_steady env (ids ++ [j]) m (k + 1) st1
      (by intro t h1 _; exact ⟨henv1 t, henv2 t (by omega)⟩) rfl
  have hturnk : runLoop env (1 + m) k st0 =
      (st1,
       (Event.work k :: ids.map (Event.invokeEach k) ++
         [Event.checkSignal k true, Event.embedShell k,
          Event.startListener 1]) ++
         steadyTrace (ids ++ [j]) (k + 1) m, none) := by
    rw [show 1 + m = m + 1 by omega]
    rw [runLoop_succ_ok env m k st0 (by rw [hone])]
    rw [hone, hsteady2]
  have hloop : runLoop env (k + 1 + m) 0 st0 =
      (st1,
       steadyTrace ids 0 k ++
         ((Event.work k :: ids.map (Event.invokeEach k) ++
           [Event.checkSignal k true, Event.embedShell k,
            Event.startListener 1]) ++
           steadyTrace (ids ++ [j]) (k + 1) m), none) := by
    rw [show k + 1 + m = k + (1 + m) by omega]
    rw [runLoop_split_ok env k (1 + m) 0 st0 st0 (steadyTrace ids 0 k) hsteady1]
    rw [show 0 + k = k by omega, hturnk]
  have htr : (tracker_code env (ids.map Hook.pure) (pids.map Hook.pure)
      (k + 1 + m)).1 =
      Event.startListener 0 :: (steadyTrace ids 0 k ++
        (Event.work k :: ids.map (Event.invokeEach k) ++
          [Event.checkSignal k true, Event.embedShell k,
           Event.startListener 1]) ++
        steadyTrace (ids ++ [j]) (k + 1) m ++
        pids.map Event.invokePost ++ [Event.joinThread 1]) := by
    simp only [tracker_code, ← hst0, hloop]
    simp [runPost_pureList, hst1, List.append_assoc]
  refine ⟨htr, ?_, ?_⟩
  · rw [htr]
    intro hmem
    rcases List.mem_cons.mp hmem with h | h
    · exact absurd h (by simp)
    rcases List.mem_append.mp h with h | h
    swap
    · simp at h
    rcases List.mem_append.mp h with h | h
    swap
    · obtain ⟨i, _, heq⟩ := List.mem_map.mp h
      exact absurd heq (by simp)
    rcases List.mem_append.mp h with h | h
    swap
    · have := (mem_steadyTrace_invokeEach (ids ++ [j]) m (k + 1) k j h).2.1
      omega
    rcases List.mem_append.mp h with h | h
    · exact hj (mem_steadyTrace_invokeEach ids k 0 k j h).1
    rcases List.mem_cons.mp h with h | h
    · exact absurd h (by simp)
    rcases List.mem_append.mp h with h | h
    · obtain ⟨i, hi, heq⟩ := List.mem_map.mp h
      simp only [Event.invokeEach.injEq] at heq
      exact hj (heq.2 ▸ hi)
    · simp at h
  · rw [htr]
    have hmem : Event.invokeEach (k + 1) j ∈
        steadyTrace (ids ++ [j]) (k + 1) m :=
      invokeEach_mem_steadyTrace (ids ++ [j]) (k + 1) j m hm (by simp)
    exact List.mem_cons_of_mem _
      (List.mem_append_left _ (List.mem_append_left _
        (List.mem_append_right _ hmem)))

/-- Witness for C8: one pre-registered hook 1, trigger at iteration 0
of two iterations, appended hook 3. -/
theorem handoff_appended_hook_starts_next_iteration_witness :
    (0 + 1 < 2) ∧ (3 ∉ [1]) ∧
    ((tracker_code (envTrigAt 0 [EmbedAct.addEach (Hook.pure 3)])
        ([1].map Hook.pure) ([].map Hook.pure) 2).1 =
      Event.startListener 0 :: (steadyTrace [1] 0 0 ++
        (Event.work 0 :: [1].map (Event.invokeEach 0) ++
          [Event.checkSignal 0 true, Event.embedShell 0,
           Event.startListener 1]) ++
        steadyTrace ([1] ++ [3]) (0 + 1) (2 - (0 + 1)) ++
        ([] : List Nat).map Event.invokePost ++ [Event.joinThread 1]) ∧
     Event.invokeEach 0 3 ∉
      (tracker_code (envTrigAt 0 [EmbedAct.addEach (Hook.pure 3)])
        ([1].map Hook.pure) ([].map Hook.pure) 2).1 ∧
     Event.invokeEach (0 + 1) 3 ∈
      (tracker_code (envTrigAt 0 [EmbedAct.addEach (Hook.pure 3)])
        ([1].map Hook.pure) ([].map Hook.pure) 2).1) :=
  ⟨by decide, by decide,
   handoff_appended_hook_starts_next_iteration 0 2 3 [1] []
     (by decide) (by decide)⟩

theorem runLive_append_hook (t : Nat) (pres : List Nat) (a b : Nat) :
    ∀ done, runLive t done (pres.map Hook.pure ++ [Hook.appendEach a (Hook.pure b)]) =
      (done ++ pres.map Hook.pure ++ [Hook.appendEach a (Hook.pure b), Hook.pure b],
       pres.map (Event.invokeEach t) ++ [Event.invokeEach t a, Event.invokeEach t b],
       none) := by
  induction pres with
  | nil => intro done; simp [runLive]
  | cons i pres ih =>
    intro done
    simp only [List.map_cons, List.cons_append, runLive, ih]
    simp

/-- C10: because the per-iteration hook list is iterated live (not
snapshotted), a per-iteration hook that appends a new hook to that
list during its own invocation causes the appended hook to be invoked
within the same, current iteration: in the single iteration of this
run, hook a appends the pure hook b and the trace shows invokeEach 0 a
immediately followed by invokeEach 0 b, both at turn 0 — in contrast
to hooks appended during a hand-off, which are first invoked at the
next iteration (see the hand-off theorem). -/
theorem live_hook_list_same_iteration_append (pres pids : List Nat) (a b : Nat) :
    tracker_code envSteady
        (pres.map Hook.pure ++ [Hook.appendEach a (Hook.pure b)])
        (pids.map Hook.pure) 1 =
      (Event.startListener 0 ::
        (Event.work 0 :: (pres.map (Event.invokeEach 0) ++
          [Event.invokeEach 0 a, Event.invokeEach 0 b,
           Event.checkSignal 0 false]) ++
          (pids.map Event.invokePost ++ [Event.joinThread 0])),
       Except.ok ()) := by
  set each0 := pres.map Hook.pure ++ [Hook.appendEach a (Hook.pure b)] with he0
  set st1 : LoopSt :=
    { tasks_each_turn :=
        pres.map Hook.pure ++ [Hook.appendEach a (Hook.pure b), Hook.pure b],
      tasks_after_tracking := pids.map Hook.pure,
      threadId := 0, nextId := 1 } with hst1
  have hone : oneTurn envSteady 0 (initSt each0 (pids.map Hook.pure)) =
      (st1,
       Event.work 0 :: (pres.map (Event.invokeEach 0) ++
         [Event.invokeEach 0 a, Event.invokeEach 0 b]) ++
         [Event.checkSignal 0 false],
       none) := by
    simp [oneTurn, envSteady, initSt, he0, runLive_append_hook, hst1]
  have hloop : runLoop envSteady 1 0 (initSt each0 (pids.map Hook.pure)) =
      (st1,
       Event.work 0 :: (pres.map (Event.invokeEach 0) ++
         [Event.invokeEach 0 a, Event.invokeEach 0 b]) ++
         [Event.checkSignal 0 false],
       none) := by
    rw [show (1 : Nat) = 0 + 1 by rfl]
    rw [runLoop_succ_ok envSteady 0 0 _ (by rw [hone])]
    rw [hone]
    simp [runLoop]
  simp only [tracker_code, hloop]
  simp [runPost_pureList, hst1]

/-- C7: every Signal starts unset — listen() creates a fresh empty
comms list on every call, rather than reusing or clearing a previous
one — and the only write the listener worker ever performs is the
single append of True, after which the worker terminates: the worker
body takes the fresh unset Signal to a set Signal in exactly one
append, and the transition unset to set is never reverted in place —
a Signal that is set stays set under the only writer of the model. -/
theorem signal_fresh_and_set_once (c : Signal) (hset : signalSet c = true) :
    listen.comms = [] ∧
    signalSet listen.comms = false ∧
    listen.body = listening_thread ∧
    listening_thread listen.comms = [true] ∧
    signalSet (listening_thread listen.comms) = true ∧
    (∀ d : Signal, listening_thread d = d ++ [true]) ∧
    signalSet (listening_thread c) = true := by
  refine ⟨rfl, rfl, rfl, rfl, rfl, fun d => rfl, ?_⟩
  simp [signalSet, listening_thread]

/-- Witness for C7 at the already-set Signal containing one True. -/
theorem signal_fresh_and_set_once_witness :
    (signalSet [true] = true) ∧
    (listen.comms = [] ∧
     signalSet listen.comms = false ∧
     listen.body = listening_thread ∧
     listening_thread listen.comms = [true] ∧
     signalSet (listening_thread listen.comms) = true ∧
     (∀ d : Signal, listening_thread d = d ++ [true]) ∧
     signalSet (listening_thread [true]) = true) :=
  ⟨rfl, signal_fresh_and_set_once [true] rfl⟩

theorem liveCount_nil : liveCount [] = 0 := rfl

theorem liveCount_cons (ev : Event) (l : List Event) :
    liveCount (ev :: l) = liveDelta ev + liveCount l := by
  simp [liveCount]

theorem liveCount_append (xs ys : List Event) :
    liveCount (xs ++ ys) = liveCount xs + liveCount ys := by
  simp [liveCount]

theorem liveBound_append (xs : List Event) :
    ∀ (c : Int) (ys : List Event),
      liveBound c (xs ++ ys) =
        (liveBound c xs && liveBound (c + liveCount xs) ys) := by
  induction xs with
  | nil => intro c ys; simp [liveBound, liveCount]
  | cons ev rest ih =>
    intro c ys
    simp only [List.cons_append, liveBound, List.append_eq, ih, liveCount_cons,
      Bool.and_assoc, add_assoc]

theorem liveBound_work_one (t : Nat) (rest : List Event) :
    liveBound 1 (Event.work t :: rest) = liveBound 1 rest := by
  norm_num [liveBound, liveDelta]

theorem liveBound_checkF_one (t : Nat) (rest : List Event) :
    liveBound 1 (Event.checkSignal t false :: rest) = liveBound 1 rest := by
  norm_num [liveBound, liveDelta]

theorem liveBound_trigger_one (t lid : Nat) (rest : List Event) :
    liveBound 1 (Event.checkSignal t true :: Event.embedShell t ::
      Event.startListener lid :: rest) = liveBound 1 rest := by
  norm_num [liveBound, liveDelta]

theorem liveBound_join_one (lid : Nat) :
    liveBound 1 [Event.joinThread lid] = true := by
  norm_num [liveBound, liveDelta]

theorem liveBound_start_zero (l : Nat) (rest : List Event) :
    liveBound 0 (Event.startListener l :: rest) = liveBound 1 rest := by
  norm_num [liveBound, liveDelta]

theorem liveBound_flat (evs : List Event)
    (h : ∀ ev ∈ evs, isFlat ev = true) :
    ∀ c : Int, 0 ≤ c → c ≤ 1 →
      liveCount evs = 0 ∧ liveBound c evs = true := by
  induction evs with
  | nil => intro c _ _; exact ⟨rfl, rfl⟩
  | cons ev rest ih =>
    intro c h0 h1
    have hev := h ev (List.mem_cons_self ev rest)
    have hrec := ih (fun e he => h e (List.mem_cons_of_mem ev he)) c h0 h1
    cases ev with
    | startListener l => simp [isFlat] at hev
    | work t => simp [isFlat] at hev
    | joinThread l => simp [isFlat] at hev
    | checkSignal t fired =>
      cases fired with
      | true => simp [isFlat] at hev
      | false =>
        refine ⟨by simp [liveCount_cons, liveDelta, hrec.1], ?_⟩
        simp only [liveBound, liveDelta, if_neg Bool.false_ne_true, add_zero,
          hrec.2, decide_eq_true h0, decide_eq_true h1]
        rfl
    | invokeEach t i =>
      refine ⟨by simp [liveCount_cons, liveDelta, hrec.1], ?_⟩
      simp only [liveBound, liveDelta, add_zero, hrec.2,
        decide_eq_true h0, decide_eq_true h1]
      rfl
    | invokePost i =>
      refine ⟨by simp [liveCount_cons, liveDelta, hrec.1], ?_⟩
      simp only [liveBound, liveDelta, add_zero, hrec.2,
        decide_eq_true h0, decide_eq_true h1]
      rfl
    | embedShell t =>
      refine ⟨by simp [liveCount_cons, liveDelta, hrec.1], ?_⟩
      simp only [liveBound, liveDelta, add_zero, hrec.2,
        decide_eq_true h0, decide_eq_true h1]
      rfl

theorem runPost_events (post : List Hook) :
    ∀ each, ∀ ev ∈ (runPost each post).2.1, ∃ i, ev = Event.invokePost i := by
  induction post with
  | nil => intro each ev hev; simp [runPost] at hev
  | cons h rest ih =>
    intro each ev hev
    cases h with
    | pure i =>
      simp only [runPost, List.mem_cons] at hev
      rcases hev with rfl | hev
      · exact ⟨i, rfl⟩
      · exact ih each ev hev
    | raiseErr i =>
      simp only [runPost, List.mem_singleton] at hev
      exact ⟨i, hev⟩
    | appendEach i h2 =>
      simp only [runPost, List.mem_cons] at hev
      rcases hev with rfl | hev
      · exact ⟨i, rfl⟩
      · exact ih (each ++ [h2]) ev hev

theorem oneTurn_liveBound (env : Env) (t : Nat) (st : LoopSt)
    (hok : (oneTurn env t st).2.2 = none) :
    liveCount (oneTurn env t st).2.1 = 0 ∧
    liveBound 1 (oneTurn env t st).2.1 = true := by
  obtain ⟨evs, hevs, hcase⟩ := oneTurn_cases env t st
  have hflat : ∀ ev ∈ evs, isFlat ev = true := by
    intro ev hev
    obtain ⟨i, rfl⟩ := hevs ev hev
    rfl
  obtain ⟨hc, hb⟩ := liveBound_flat evs hflat 1 (by norm_num) (le_refl 1)
  rcases hcase with ⟨_, hne⟩ | ⟨hd, _⟩ | ⟨hd, _⟩
  · exact absurd hok hne
  · rw [hd]
    constructor
    · simp [liveCount_cons, liveCount_append, liveCount_nil, liveDelta, hc]
    · rw [liveBound_append, liveBound_work_one, hb, liveCount_cons, hc]
      norm_num [liveDelta, liveBound_checkF_one, liveBound]
  · rw [hd]
    constructor
    · simp [liveCount_cons, liveCount_append, liveCount_nil, liveDelta, hc]
    · rw [liveBound_append, liveBound_work_one, hb, liveCount_cons, hc]
      norm_num [liveDelta, liveBound_trigger_one, liveBound]

theorem runLoop_liveBound (env : Env) (n : Nat) :
    ∀ (t : Nat) (st : LoopSt), (runLoop env n t st).2.2 = none →
      liveCount (runLoop env n t st).2.1 = 0 ∧
      liveBound 1 (runLoop env n t st).2.1 = true := by
  induction n with
  | zero => intro t st _; exact ⟨rfl, rfl⟩
  | succ m ih =>
    intro t st hok
    rcases herr : (oneTurn env t st).2.2 with _ | e
    · rw [runLoop_succ_ok env m t st herr] at hok ⊢
      dsimp only at hok ⊢
      obtain ⟨hc1, hb1⟩ := oneTurn_liveBound env t st herr
      obtain ⟨hc2, hb2⟩ := ih (t + 1) (oneTurn env t st).1 hok
      refine ⟨by rw [liveCount_append, hc1, hc2]; norm_num, ?_⟩
      rw [liveBound_append, hc1, hb1]
      norm_num [hb2]
    · rw [runLoop_succ_err env m t st e herr] at hok
      simp at hok

theorem heldAfter_append (xs : List Event) :
    ∀ (c : Nat) (ys : List Event),
      heldAfter c (xs ++ ys) = heldAfter (heldAfter c xs) ys := by
  induction xs with
  | nil => intro c ys; rfl
  | cons ev rest ih =>
    intro c ys
    cases ev <;> simp only [List.cons_append, heldAfter] <;>
      first
        | exact ih 1 ys
        | exact ih 0 ys
        | exact ih c ys

theorem heldAfter_no_join (evs : List Event)
    (h : ∀ ev ∈ evs, isJoin ev = false) :
    heldAfter 1 evs = 1 := by
  induction evs with
  | nil => rfl
  | cons ev rest ih =>
    have hrest := ih (fun e he => h e (List.mem_cons_of_mem ev he))
    cases ev with
    | joinThread l =>
      exact absurd (h _ (List.mem_cons_self _ _)) (by simp [isJoin])
    | startListener l => simpa [heldAfter] using hrest
    | work t => simpa [heldAfter] using hrest
    | invokeEach t i => simpa [heldAfter] using hrest
    | checkSignal t f => simpa [heldAfter] using hrest
    | embedShell t => simpa [heldAfter] using hrest
    | invokePost i => simpa [heldAfter] using hrest

theorem held_one_at_interior (mid : List Event) (l0 lid : Nat)
    (hmid : ∀ ev ∈ mid, isJoin ev = false) :
    ∀ pre suf,
      Event.startListener l0 :: mid ++ [Event.joinThread lid] = pre ++ suf →
      pre ≠ [] → suf ≠ [] → heldAfter 0 pre = 1 := by
  intro pre suf heq hpre hsuf
  cases pre with
  | nil => exact absurd rfl hpre
  | cons a q =>
    simp only [List.cons_append] at heq
    obtain ⟨rfl, heq2⟩ : a = Event.startListener l0 ∧
        q ++ suf = mid ++ [Event.joinThread lid] := by
      injection heq with h1 h2; exact ⟨h1.symm, h2.symm⟩
    rcases List.eq_nil_or_concat suf with rfl | ⟨s, x, rfl⟩
    · exact absurd rfl hsuf
    · rw [List.concat_eq_append] at heq2
      have heq3 : (q ++ s) ++ [x] = mid ++ [Event.joinThread lid] := by
        rw [← heq2, List.append_assoc]
      obtain ⟨hqs, _⟩ := List.append_inj' heq3 rfl
      have hq : ∀ ev ∈ q, isJoin ev = false := by
        intro ev hev
        exact hmid ev (hqs ▸ List.mem_append_left s hev)
      show heldAfter 0 (Event.startListener l0 :: q) = 1
      simp only [heldAfter]
      exact heldAfter_no_join q hq

theorem tracker_ok_parts (env : Env) (each post : List Hook) (N : Nat)
    (hok : (tracker_code env each post N).2 = Except.ok ()) :
    (runLoop env N 0 (initSt each post)).2.2 = none ∧
    (runPost (runLoop env N 0 (initSt each post)).1.tasks_each_turn
      (runLoop env N 0 (initSt each post)).1.tasks_after_tracking).2.2 = none := by
  rcases h1 : (runLoop env N 0 (initSt each post)).2.2 with _ | e
  · rcases h2 : (runPost (runLoop env N 0 (initSt each post)).1.tasks_each_turn
        (runLoop env N 0 (initSt each post)).1.tasks_after_tracking).2.2 with _ | e
    · exact ⟨rfl, rfl⟩
    · exfalso; simp [tracker_code, h1, h2] at hok
  · exfalso; simp [tracker_code, h1] at hok

/-- C6: over a run that completes (reaches DONE), at most one listener
worker is ever live at any point — liveBound checks, event by event,
that the number of live workers (start: +1; a poll observing the
trigger: the worker delivered its input and terminated: -1; a
completed join: -1) stays between 0 and 1 at every point of the trace,
and that it is exactly 1 whenever an iteration begins its work (while
running); liveCount 0 says the run ends with zero live workers after
the final join. For the handle the loop holds (the thread variable):
heldAfter 0 of the full trace says the final join releases the last
held handle, and the last conjunct says that at every interior point
of the run — while running or paused — the loop holds exactly one
not-yet-joined ListenerHandle. -/
theorem single_listener_invariant (env : Env) (each post : List Hook) (N : Nat)
    (hok : (tracker_code env each post N).2 = Except.ok ()) :
    liveBound 0 (tracker_code env each post N).1 = true ∧
    liveCount (tracker_code env each post N).1 = 0 ∧
    heldAfter 0 (tracker_code env each post N).1 = 0 ∧
    (∀ pre suf, (tracker_code env each post N).1 = pre ++ suf →
      pre ≠ [] → suf ≠ [] → heldAfter 0 pre = 1) := by
  obtain ⟨h1, h2⟩ := tracker_ok_parts env each post N hok
  have htrace : (tracker_code env each post N).1 =
      Event.startListener 0 ::
        (((runLoop env N 0 (initSt each post)).2.1 ++
          (runPost (runLoop env N 0 (initSt each post)).1.tasks_each_turn
            (runLoop env N 0 (initSt each post)).1.tasks_after_tracking).2.1) ++
         [Event.joinThread (runLoop env N 0 (initSt each post)).1.threadId]) := by
    simp [tracker_code, h1, h2]
  set loopEvs := (runLoop env N 0 (initSt each post)).2.1 with hle
  set postEvs := (runPost (runLoop env N 0 (initSt each post)).1.tasks_each_turn
    (runLoop env N 0 (initSt each post)).1.tasks_after_tracking).2.1 with hpe
  set lid := (runLoop env N 0 (initSt each post)).1.threadId with hlid
  have hloopB := runLoop_liveBound env N 0 (initSt each post) h1
  have hpostFlat : ∀ ev ∈ postEvs, isFlat ev = true := by
    intro ev hev
    obtain ⟨i, rfl⟩ := runPost_events
      (runLoop env N 0 (initSt each post)).1.tasks_after_tracking
      (runLoop env N 0 (initSt each post)).1.tasks_each_turn ev hev
    rfl
  obtain ⟨hpc, hpb⟩ := liveBound_flat postEvs hpostFlat 1 (by norm_num) (le_refl 1)
  have hmid : ∀ ev ∈ loopEvs ++ postEvs, isJoin ev = false := by
    intro ev hev
    rcases List.mem_append.mp hev with h | h
    · exact runLoop_no_join_of_ok env N 0 (initSt each post) h1 ev h
    · obtain ⟨i, rfl⟩ := runPost_events
        (runLoop env N 0 (initSt each post)).1.tasks_after_tracking
        (runLoop env N 0 (initSt each post)).1.tasks_each_turn ev h
      rfl
  refine ⟨?_, ?_, ?_, ?_⟩
  · rw [htrace, liveBound_start_zero, List.append_assoc, liveBound_append,
      hloopB.1, hloopB.2]
    norm_num [liveBound_append, hpc, hpb, liveBound_join_one]
  · rw [htrace, liveCount_cons, List.append_assoc, liveCount_append,
      liveCount_append, hloopB.1, hpc]
    norm_num [liveCount_cons, liveCount_nil, liveDelta]
  · rw [htrace]
    simp only [heldAfter]
    rw [heldAfter_append, heldAfter_no_join (loopEvs ++ postEvs) hmid]
    rfl
  · intro pre suf heq hpre hsuf
    rw [htrace] at heq
    exact held_one_at_interior (loopEvs ++ postEvs) 0 lid hmid pre suf heq hpre hsuf

/-- Witness for C6: the steady two-iteration run with one hook of each
kind. -/
theorem single_listener_invariant_witness :
    ((tracker_code envSteady [Hook.pure 1] [Hook.pure 2] 2).2 = Except.ok ()) ∧
    (liveBound 0 (tracker_code envSteady [Hook.pure 1] [Hook.pure 2] 2).1 = true ∧
     liveCount (tracker_code envSteady [Hook.pure 1] [Hook.pure 2] 2).1 = 0 ∧
     heldAfter 0 (tracker_code envSteady [Hook.pure 1] [Hook.pure 2] 2).1 = 0 ∧
     (∀ pre suf, (tracker_code envSteady [Hook.pure 1] [Hook.pure 2] 2).1 =
        pre ++ suf → pre ≠ [] → suf ≠ [] → heldAfter 0 pre = 1)) :=
  ⟨by simp [tracker_code, runLoop, oneTurn, runLive, runPost, envSteady, initSt],
   single_listener_invariant envSteady [Hook.pure 1] [Hook.pure 2] 2
     (by simp [tracker_code, runLoop, oneTurn, runLive, runPost, envSteady, initSt])⟩

end TrackWhileListening
